import Mathlib

/-!
# TaskManger — verification of the TaskStore ordering engine

Shallow embedding of the task store from `hooks/useTasks.tsx`.
A task holds an opaque id, a title, a completion flag and a creation
timestamp (`Date.getTime()` values, modelled as rationals).  The store
state is the ordered list of tasks; each mutation replaces the whole
list.  External dependencies (`Crypto.randomUUID()`, `new Date()`) are
modelled as explicit parameters of `addTask`.
-/

namespace TaskStore

/-- A single to-do item, mirroring the `Task` interface of the source. -/
structure Task where
  id : String
  title : String
  completed : Bool
  createdAt : ℚ
deriving DecidableEq

/-- `addTask`: builds a new task with the injected fresh id and current
time, `completed = false`, and prepends it to the list. -/
def addTask (freshId : String) (title : String) (now : ℚ)
    (prev : List Task) : List Task :=
  { id := freshId, title := title, completed := false, createdAt := now } :: prev

/-- The per-task map body of `toggleTask` step 1: flip `completed` on the
task whose id matches, leave every other task unchanged. -/
def flipIf (id : String) (task : Task) : Task :=
  if task.id == id then { task with completed := !task.completed } else task

/-- The `insertIndex` loop of `toggleTask`: starting from 0, scan the
incomplete group; on the first element whose `createdAt` is strictly below
the toggled task's, stop there; otherwise advance past it. -/
def insertIndex (toggledTask : Task) : List Task → Nat
  | [] => 0
  | x :: xs =>
    if toggledTask.createdAt > x.createdAt then 0
    else insertIndex toggledTask xs + 1

/-- `Array.prototype.splice(i, 0, t)`: insert `t` at position `i`. -/
def spliceAt (i : Nat) (t : Task) (l : List Task) : List Task :=
  l.take i ++ t :: l.drop i

/-- `toggleTask`: flip the matching task's flag, pull it out, then either
append it at the very end (now completed) or splice it into the incomplete
group at `insertIndex` and concatenate the completed group after. -/
def toggleTask (id : String) (prev : List Task) : List Task :=
  let updatedTasks := prev.map (flipIf id)
  match updatedTasks.find? (fun task => task.id == id) with
  | none => prev
  | some toggledTask =>
    let otherTasks := updatedTasks.filter (fun task => task.id != id)
    if toggledTask.completed then
      otherTasks ++ [toggledTask]
    else
      let incompleteTasks := otherTasks.filter (fun task => !task.completed)
      let completedTasks := otherTasks.filter (fun task => task.completed)
      spliceAt (insertIndex toggledTask incompleteTasks) toggledTask
        incompleteTasks ++ completedTasks

/-- `updateTask`: replace the title on the matching task, in place. -/
def updateTask (id : String) (title : String) (prev : List Task) : List Task :=
  prev.map (fun task => if task.id == id then { task with title := title } else task)

/-- `deleteTask`: remove every task whose id matches. -/
def deleteTask (id : String) (prev : List Task) : List Task :=
  prev.filter (fun task => task.id != id)

/-- `clearAllTasks`: returns the old count and installs the empty list. -/
def clearAllTasks (tasks : List Task) : Nat × List Task :=
  (tasks.length, [])

/-- The spec's description of the reinsertion rule (§4.2 step 4), written
directly from its words: scan the incomplete group from the front and
insert the reactivated task immediately before the first task whose
`createdAt` is strictly less than the reactivated task's, or at the end
if there is none.  Compared against the source's `insertIndex`/splice. -/
def specReinsert (t : Task) : List Task → List Task
  | [] => [t]
  | x :: xs =>
    if x.createdAt < t.createdAt then t :: x :: xs
    else x :: specReinsert t xs

/-- The partition invariant: every incomplete task precedes every
completed task, i.e. once a completed task occurs, everything after it
is completed. -/
def Partitioned (l : List Task) : Prop :=
  l.Pairwise (fun a b => a.completed = true → b.completed = true)

instance : DecidablePred Partitioned := fun l =>
  inferInstanceAs (Decidable (l.Pairwise _))

/-- `id` matches no task of `l`. -/
def NoId (id : String) (l : List Task) : Prop :=
  ∀ u ∈ l, u.id ≠ id

instance (id : String) (l : List Task) : Decidable (NoId id l) :=
  inferInstanceAs (Decidable (∀ u ∈ l, u.id ≠ id))

/-- States reachable from the empty store by the five mutations, with the
injected id-generator and clock values universally quantified. -/
inductive Reachable : List Task → Prop
  | empty : Reachable []
  | add (freshId title : String) (now : ℚ) {l : List Task} :
      Reachable l → Reachable (addTask freshId title now l)
  | toggle (id : String) {l : List Task} :
      Reachable l → Reachable (toggleTask id l)
  | update (id title : String) {l : List Task} :
      Reachable l → Reachable (updateTask id title l)
  | delete (id : String) {l : List Task} :
      Reachable l → Reachable (deleteTask id l)
  | clear {l : List Task} :
      Reachable l → Reachable (clearAllTasks l).2

/-! ## Basic lemmas about the per-task operations -/

theorem flipIf_id_eq (i : String) (t : Task) : (flipIf i t).id = t.id := by
  unfold flipIf; split <;> rfl

theorem flipIf_of_ne {i : String} {t : Task} (h : t.id ≠ i) : flipIf i t = t := by
  simp [flipIf, h]

theorem flipIf_of_eq {i : String} {t : Task} (h : t.id = i) :
    flipIf i t = { t with completed := !t.completed } := by
  simp [flipIf, h]

theorem map_flipIf_of_noid {i : String} {l : List Task} (h : NoId i l) :
    l.map (flipIf i) = l := by
  induction l with
  | nil => rfl
  | cons x xs ih =>
    have hx : x.id ≠ i := h x (by simp)
    have hxs : NoId i xs := fun u hu => h u (by simp [hu])
    simp [flipIf_of_ne hx, ih hxs]

theorem find?_id_decomp {i : String} {l1 l2 : List Task} {t : Task}
    (h1 : NoId i l1) (ht : t.id = i) :
    (l1 ++ t :: l2).find? (fun u => u.id == i) = some t := by
  rw [List.find?_append]
  have h0 : l1.find? (fun u => u.id == i) = none :=
    List.find?_eq_none.2 (fun x hx => by simp [h1 x hx])
  rw [h0, List.find?_cons_of_pos _ (by simp [ht])]
  rfl

theorem filter_ne_decomp {i : String} {l1 l2 : List Task} {t : Task}
    (h1 : NoId i l1) (h2 : NoId i l2) (ht : t.id = i) :
    (l1 ++ t :: l2).filter (fun u => u.id != i) = l1 ++ l2 := by
  have e1 : l1.filter (fun u => u.id != i) = l1 :=
    List.filter_eq_self.2 (fun a ha => by simp [h1 a ha])
  have e2 : l2.filter (fun u => u.id != i) = l2 :=
    List.filter_eq_self.2 (fun a ha => by simp [h2 a ha])
  rw [List.filter_append, e1, List.filter_cons]
  simp [ht, e2]

/-! ## Decomposing `toggleTask` at a uniquely matching task -/

theorem toggleTask_decomp {i : String} {l1 l2 : List Task} {t : Task}
    (h1 : NoId i l1) (h2 : NoId i l2) (ht : t.id = i) :
    toggleTask i (l1 ++ t :: l2) =
      if (!t.completed) = true then
        (l1 ++ l2) ++ [{ t with completed := !t.completed }]
      else
        spliceAt (insertIndex { t with completed := !t.completed }
            ((l1 ++ l2).filter (fun u => !u.completed)))
          { t with completed := !t.completed }
          ((l1 ++ l2).filter (fun u => !u.completed)) ++
        (l1 ++ l2).filter (fun u => u.completed) := by
  have hmap : (l1 ++ t :: l2).map (flipIf i) =
      l1 ++ { t with completed := !t.completed } :: l2 := by
    rw [List.map_append, map_flipIf_of_noid h1]
    simp [map_flipIf_of_noid h2, flipIf_of_eq ht]
  have hid : ({ t with completed := !t.completed } : Task).id = i := ht
  simp only [toggleTask, hmap, find?_id_decomp h1 hid, filter_ne_decomp h1 h2 hid]

theorem toggleTask_completes {i : String} {l1 l2 : List Task} {t : Task}
    (h1 : NoId i l1) (h2 : NoId i l2) (ht : t.id = i)
    (hc : t.completed = false) :
    toggleTask i (l1 ++ t :: l2) = (l1 ++ l2) ++ [{ t with completed := true }] := by
  rw [toggleTask_decomp h1 h2 ht, hc]
  rfl

theorem toggleTask_uncompletes {i : String} {l1 l2 : List Task} {t : Task}
    (h1 : NoId i l1) (h2 : NoId i l2) (ht : t.id = i)
    (hc : t.completed = true) :
    toggleTask i (l1 ++ t :: l2) =
      spliceAt (insertIndex { t with completed := false }
          ((l1 ++ l2).filter (fun u => !u.completed)))
        { t with completed := false }
        ((l1 ++ l2).filter (fun u => !u.completed)) ++
      (l1 ++ l2).filter (fun u => u.completed) := by
  rw [toggleTask_decomp h1 h2 ht, hc]
  rfl

/-! ## The splice/insertIndex loop agrees with the spec's scan rule -/

theorem spliceAt_insertIndex (t : Task) (l : List Task) :
    spliceAt (insertIndex t l) t l = specReinsert t l := by
  induction l with
  | nil => rfl
  | cons x xs ih =>
    by_cases h : x.createdAt < t.createdAt
    · simp [insertIndex, spliceAt, specReinsert, h]
    · simp only [insertIndex, specReinsert, gt_iff_lt, if_neg h]
      rw [← ih]
      simp [spliceAt]

theorem specReinsert_perm (t : Task) (l : List Task) :
    (specReinsert t l).Perm (t :: l) := by
  induction l with
  | nil => exact List.Perm.refl _
  | cons x xs ih =>
    by_cases h : x.createdAt < t.createdAt
    · simp [specReinsert, h]
    · simp only [specReinsert, if_neg h]
      exact (ih.cons x).trans (List.Perm.swap t x xs)

theorem specReinsert_decomp (t : Task) (l : List Task) :
    ∃ s1 s2, specReinsert t l = s1 ++ t :: s2 ∧ s1 ++ s2 = l := by
  induction l with
  | nil => exact ⟨[], [], rfl, rfl⟩
  | cons x xs ih =>
    by_cases h : x.createdAt < t.createdAt
    · exact ⟨[], x :: xs, by simp [specReinsert, h], rfl⟩
    · obtain ⟨s1, s2, he, hs⟩ := ih
      exact ⟨x :: s1, s2, by simp [specReinsert, h, he], by simp [hs]⟩

theorem mem_spliceAt {a t : Task} {n : Nat} {l : List Task}
    (h : a ∈ spliceAt n t l) : a = t ∨ a ∈ l := by
  unfold spliceAt at h
  rcases List.mem_append.1 h with h | h
  · exact Or.inr (List.take_subset n l h)
  · rcases List.mem_cons.1 h with h | h
    · exact Or.inl h
    · exact Or.inr (List.drop_subset n l h)

/-! ## Partition-invariant preservation -/

theorem partitioned_sublist {l l' : List Task} (hs : l'.Sublist l)
    (h : Partitioned l) : Partitioned l' :=
  List.Pairwise.sublist hs h

theorem partitioned_of_all_incomplete {l : List Task}
    (h : ∀ a ∈ l, a.completed = false) : Partitioned l := by
  induction l with
  | nil => exact List.Pairwise.nil
  | cons x xs ih =>
    refine List.Pairwise.cons (fun b _ hx => ?_) (ih fun a ha => h a (by simp [ha]))
    exact absurd hx (by simp [h x (by simp)])

theorem partitioned_of_all_completed {l : List Task}
    (h : ∀ a ∈ l, a.completed = true) : Partitioned l := by
  induction l with
  | nil => exact List.Pairwise.nil
  | cons x xs ih =>
    exact List.Pairwise.cons (fun b hb _ => h b (by simp [hb]))
      (ih fun a ha => h a (by simp [ha]))

theorem filter_ne_map_flipIf (i : String) (l : List Task) :
    (l.map (flipIf i)).filter (fun u => u.id != i) =
      l.filter (fun u => u.id != i) := by
  induction l with
  | nil => rfl
  | cons x xs ih =>
    by_cases h : x.id = i
    · simp [List.filter_cons, flipIf_id_eq, h, ih]
    · simp [List.filter_cons, flipIf_of_ne h, h, ih]

theorem partitioned_toggleTask (i : String) {l : List Task}
    (h : Partitioned l) : Partitioned (toggleTask i l) := by
  cases hf : (l.map (flipIf i)).find? (fun task => task.id == i) with
  | none =>
    simp only [toggleTask, hf]
    exact h
  | some tog =>
    simp only [toggleTask, hf, filter_ne_map_flipIf]
    by_cases hc : tog.completed = true
    · rw [if_pos hc]
      refine List.pairwise_append.2
        ⟨partitioned_sublist (List.filter_sublist l) h, ?_, ?_⟩
      · simp [List.pairwise_singleton]
      · intro a _ b hb _
        rcases List.mem_singleton.1 hb with rfl
        exact hc
    · rw [if_neg hc]
      have hc' : tog.completed = false := by
        cases h' : tog.completed
        · rfl
        · exact absurd h' hc
      refine List.pairwise_append.2 ⟨?_, ?_, ?_⟩
      · refine partitioned_of_all_incomplete (fun a ha => ?_)
        rcases mem_spliceAt ha with rfl | ha'
        · exact hc'
        · simpa using (List.mem_filter.1 ha').2
      · exact partitioned_of_all_completed
          (fun a ha => (List.mem_filter.1 ha).2)
      · intro a _ b hb _
        exact (List.mem_filter.1 hb).2

theorem updateBody_completed (i title : String) (x : Task) :
    (if x.id == i then { x with title := title } else x).completed =
      x.completed := by
  split <;> rfl

theorem partitioned_updateTask (i title : String) {l : List Task}
    (h : Partitioned l) : Partitioned (updateTask i title l) := by
  unfold updateTask Partitioned
  rw [List.pairwise_map]
  refine List.Pairwise.imp ?_ h
  intro a b hab
  simp only [updateBody_completed]
  exact hab

/-! ## Unknown-id no-ops -/

theorem noid_append {i : String} {l1 l2 : List Task}
    (h1 : NoId i l1) (h2 : NoId i l2) : NoId i (l1 ++ l2) := by
  intro u hu
  rcases List.mem_append.1 hu with h | h
  · exact h1 u h
  · exact h2 u h

theorem toggleTask_not_found {i : String} {l : List Task} (h : NoId i l) :
    toggleTask i l = l := by
  have hf : (l.map (flipIf i)).find? (fun task => task.id == i) = none := by
    refine List.find?_eq_none.2 ?_
    intro x hx
    obtain ⟨y, hy, rfl⟩ := List.mem_map.1 hx
    simp [flipIf_id_eq, h y hy]
  simp only [toggleTask, hf]

theorem updateTask_not_found {i title : String} {l : List Task} (h : NoId i l) :
    updateTask i title l = l := by
  induction l with
  | nil => rfl
  | cons x xs ih =>
    have hx : x.id ≠ i := h x (by simp)
    have hxs : NoId i xs := fun u hu => h u (by simp [hu])
    have hstep : updateTask i title (x :: xs) =
        (if x.id == i then { x with title := title } else x) ::
          updateTask i title xs := rfl
    rw [hstep, ih hxs, if_neg (by simp [hx])]

theorem deleteTask_not_found {i : String} {l : List Task} (h : NoId i l) :
    deleteTask i l = l :=
  List.filter_eq_self.2 (fun a ha => by simp [h a ha])

/-! ## One toggle step at a uniquely matching task, and its iteration -/

theorem toggleTask_step {i : String} {l1 l2 : List Task} {t : Task}
    (h1 : NoId i l1) (h2 : NoId i l2) (ht : t.id = i) :
    ∃ m1 m2, toggleTask i (l1 ++ t :: l2) =
        m1 ++ { t with completed := !t.completed } :: m2 ∧
      NoId i m1 ∧ NoId i m2 := by
  cases hc : t.completed with
  | false =>
    refine ⟨l1 ++ l2, [], ?_, noid_append h1 h2,
      fun u hu => absurd hu (List.not_mem_nil u)⟩
    rw [toggleTask_completes h1 h2 ht hc]
    simp [hc]
  | true =>
    have he := toggleTask_uncompletes h1 h2 ht hc
    rw [spliceAt_insertIndex] at he
    obtain ⟨s1, s2, hd, hs⟩ := specReinsert_decomp { t with completed := false }
      ((l1 ++ l2).filter (fun u => !u.completed))
    have hsub : ∀ u, u ∈ s1 ∨ u ∈ s2 → u.id ≠ i := by
      intro u hu
      have hmem : u ∈ (l1 ++ l2).filter (fun u => !u.completed) := by
        rw [← hs]
        rcases hu with h | h
        · exact List.mem_append.2 (Or.inl h)
        · exact List.mem_append.2 (Or.inr h)
      exact noid_append h1 h2 u (List.mem_of_mem_filter hmem)
    refine ⟨s1, s2 ++ (l1 ++ l2).filter (fun u => u.completed), ?_,
      fun u hu => hsub u (Or.inl hu), ?_⟩
    · rw [he, hd]
      simp [hc]
    · intro u hu
      rcases List.mem_append.1 hu with h | h
      · exact hsub u (Or.inr h)
      · exact noid_append h1 h2 u (List.mem_of_mem_filter h)

/-- The store's lookup of the task with a given id, as
`updatedTasks.find((task) => task.id === id)` in the source. -/
def findTask (i : String) (l : List Task) : Option Task :=
  l.find? (fun task => task.id == i)

theorem toggleTask_iterate {i : String} {t : Task} (ht : t.id = i) :
    ∀ (n : Nat) (l1 l2 : List Task), NoId i l1 → NoId i l2 →
      ∃ m1 m2 u, (toggleTask i)^[n] (l1 ++ t :: l2) = m1 ++ u :: m2 ∧
        NoId i m1 ∧ NoId i m2 ∧ u.id = i ∧ u.title = t.title ∧
        u.createdAt = t.createdAt ∧
        u.completed = (if n % 2 = 0 then t.completed else !t.completed) := by
  intro n
  induction n with
  | zero =>
    intro l1 l2 h1 h2
    exact ⟨l1, l2, t, rfl, h1, h2, ht, rfl, rfl, by simp⟩
  | succ n ih =>
    intro l1 l2 h1 h2
    obtain ⟨m1, m2, u, he, hm1, hm2, hid, htit, hcr, hcomp⟩ := ih l1 l2 h1 h2
    obtain ⟨p1, p2, hp, hp1, hp2⟩ := toggleTask_step hm1 hm2 hid
    refine ⟨p1, p2, { u with completed := !u.completed },
      ?_, hp1, hp2, hid, htit, hcr, ?_⟩
    · rw [Function.iterate_succ_apply', he, hp]
    · by_cases hpar : n % 2 = 0
      · have hodd : ¬ (n + 1) % 2 = 0 := by omega
        simp [hcomp, hpar, hodd]
      · have heven : (n + 1) % 2 = 0 := by omega
        simp [hcomp, hpar, heven]

/-! ## Toggle is a permutation (frame property) -/

theorem toggleTask_perm {i : String} {l1 l2 : List Task} {t : Task}
    (h1 : NoId i l1) (h2 : NoId i l2) (ht : t.id = i) :
    (toggleTask i (l1 ++ t :: l2)).Perm
      (l1 ++ { t with completed := !t.completed } :: l2) := by
  cases hc : t.completed with
  | false =>
    rw [toggleTask_completes h1 h2 ht hc]
    simp only [hc, Bool.not_false]
    exact (List.perm_append_singleton _ _).trans List.perm_middle.symm
  | true =>
    have he := toggleTask_uncompletes h1 h2 ht hc
    rw [spliceAt_insertIndex] at he
    rw [he]
    simp only [hc, Bool.not_true]
    refine ((specReinsert_perm _ _).append_right _).trans ?_
    refine (List.Perm.cons _ ?_).trans List.perm_middle.symm
    have hfilter : (l1 ++ l2).filter (fun u => u.completed) =
        (l1 ++ l2).filter (fun x => !!x.completed) := by
      refine List.filter_congr ?_
      intro x _
      rw [Bool.not_not]
    rw [hfilter]
    exact List.filter_append_perm (fun u => !u.completed) (l1 ++ l2)

/-! ## Concrete tasks used by the witnesses (the spec's §8 example data:
incomplete A, B, C created at times 3, 2, 1, completed D at 2.5) -/

def tA : Task := { id := "a", title := "A", completed := false, createdAt := 3 }
def tB : Task := { id := "b", title := "B", completed := false, createdAt := 2 }
def tC : Task := { id := "c", title := "C", completed := false, createdAt := 1 }
def tD : Task := { id := "d", title := "D", completed := true, createdAt := mkRat 5 2 }

/-! ## The claims -/

/-- C1.  Partition invariant: in every state reachable from the empty
store by any sequence of `addTask`, `toggleTask`, `updateTask`,
`deleteTask` and `clearAllTasks` calls, every task with
`completed = false` precedes every task with `completed = true`. -/
theorem partition_invariant_reachable {l : List Task} (h : Reachable l) :
    Partitioned l := by
  induction h with
  | empty => exact List.Pairwise.nil
  | add freshId title now _ ih =>
    exact List.Pairwise.cons (fun b _ hb => absurd hb (by simp [addTask])) ih
  | toggle i _ ih => exact partitioned_toggleTask i ih
  | update i title _ ih => exact partitioned_updateTask i title ih
  | delete i _ ih => exact partitioned_sublist (List.filter_sublist _) ih
  | clear _ _ => exact List.Pairwise.nil

/-- Witness for C1 at the concrete reachable state obtained by one add
and one toggle. -/
theorem partition_invariant_reachable_witness :
    Partitioned (toggleTask "a" (addTask "a" "x" 1 [])) :=
  partition_invariant_reachable
    (Reachable.toggle "a" (Reachable.add "a" "x" 1 Reachable.empty))

/-- C2.  Toggle-to-incomplete reinsertion rule: on a partitioned list in
which `i` identifies exactly one task `t`, with `t.completed = true`,
`toggleTask i` flips the flag to `false`, keeps the relative order of the
other incomplete tasks and of the other completed tasks, and inserts the
reactivated task into the incomplete group immediately before the first
incomplete task whose `createdAt` is strictly less than its own (at the
end of the incomplete group if none), followed by the completed group. -/
theorem toggle_reinsertion_rule {i : String} {l1 l2 : List Task} {t : Task}
    (h1 : NoId i l1) (h2 : NoId i l2) (ht : t.id = i)
    (_hpart : Partitioned (l1 ++ t :: l2)) (hc : t.completed = true) :
    toggleTask i (l1 ++ t :: l2) =
      specReinsert { t with completed := false }
        ((l1 ++ l2).filter (fun u => !u.completed)) ++
      (l1 ++ l2).filter (fun u => u.completed) := by
  rw [toggleTask_uncompletes h1 h2 ht hc, spliceAt_insertIndex]

/-- Witness for C2 at the spec's example: incomplete A(3), B(2), C(1) in
that order and completed D(5/2); toggling D yields exactly [A, D, B, C]. -/
theorem toggle_reinsertion_rule_witness :
    NoId "d" [tA, tB, tC] ∧ Partitioned [tA, tB, tC, tD] ∧
      tD.completed = true ∧
      toggleTask "d" [tA, tB, tC, tD] =
        [tA, { tD with completed := false }, tB, tC] := by
  refine ⟨by decide, by decide, rfl, ?_⟩
  have h := @toggle_reinsertion_rule "d" [tA, tB, tC] [] tD
    (by decide) (by decide) rfl (by decide) rfl
  exact h.trans (by decide)

/-- C3.  Toggle-to-completed append: when `i` identifies exactly one task
`t` with `t.completed = false`, `toggleTask i` flips the flag to `true`
and moves that task to the very last position, after all other tasks,
preserving the relative order of all other tasks. -/
theorem toggle_completed_appends {i : String} {l1 l2 : List Task} {t : Task}
    (h1 : NoId i l1) (h2 : NoId i l2) (ht : t.id = i)
    (hc : t.completed = false) :
    toggleTask i (l1 ++ t :: l2) = (l1 ++ l2) ++ [{ t with completed := true }] :=
  toggleTask_completes h1 h2 ht hc

/-- Witness for C3: toggling incomplete B inside [A, B, C, D] moves it to
the very end, after completed D. -/
theorem toggle_completed_appends_witness :
    NoId "b" [tA] ∧ NoId "b" [tC, tD] ∧ tB.completed = false ∧
      toggleTask "b" [tA, tB, tC, tD] =
        [tA, tC, tD, { tB with completed := true }] := by
  refine ⟨by decide, by decide, rfl, ?_⟩
  have h := @toggle_completed_appends "b" [tA] [tC, tD] tB
    (by decide) (by decide) rfl rfl
  exact h.trans (by decide)

/-- C4.  Not-found no-ops: when `i` matches no task of the list,
`toggleTask`, `updateTask` (for any title) and `deleteTask` all return
the list completely unchanged. -/
theorem not_found_noops {i : String} {l : List Task} (h : NoId i l) :
    toggleTask i l = l ∧ (∀ title, updateTask i title l = l) ∧
      deleteTask i l = l :=
  ⟨toggleTask_not_found h, fun _ => updateTask_not_found h,
    deleteTask_not_found h⟩

/-- Witness for C4 with the unknown id "x" on [A, B, C, D]. -/
theorem not_found_noops_witness :
    NoId "x" [tA, tB, tC, tD] ∧
      toggleTask "x" [tA, tB, tC, tD] = [tA, tB, tC, tD] ∧
      updateTask "x" "hello" [tA, tB, tC, tD] = [tA, tB, tC, tD] ∧
      deleteTask "x" [tA, tB, tC, tD] = [tA, tB, tC, tD] :=
  ⟨by decide, (not_found_noops (by decide)).1,
    (not_found_noops (by decide)).2.1 "hello",
    (not_found_noops (by decide)).2.2⟩

/-- C5.  Add semantics: for every list and every title (including the
empty string), `addTask` produces exactly `newTask :: l` where `newTask`
carries the given title unmodified, `completed = false`, the injected
fresh id, and the injected current time; the old tasks keep their fields
and relative order. -/
theorem addTask_prepends (freshId title : String) (now : ℚ) (l : List Task) :
    ∃ newTask, addTask freshId title now l = newTask :: l ∧
      newTask.id = freshId ∧ newTask.title = title ∧
      newTask.completed = false ∧ newTask.createdAt = now :=
  ⟨_, rfl, rfl, rfl, rfl, rfl⟩

/-- C6.  Clear semantics: `clearAllTasks` on a list of N tasks returns N
and leaves the stored sequence empty; on the empty list it returns 0 and
leaves it empty. -/
theorem clearAllTasks_semantics (l : List Task) :
    (clearAllTasks l).1 = l.length ∧ (clearAllTasks l).2 = [] ∧
      clearAllTasks ([] : List Task) = (0, []) :=
  ⟨rfl, rfl, rfl⟩

/-- C7.  Delete removes exactly one: when `i` identifies exactly one task
of the list, `deleteTask i` yields the list without that task — one
shorter, containing no task with that id, with the order and fields of
all other tasks preserved. -/
theorem delete_removes_exactly_one {i : String} {l1 l2 : List Task} {t : Task}
    (h1 : NoId i l1) (h2 : NoId i l2) (ht : t.id = i) :
    deleteTask i (l1 ++ t :: l2) = l1 ++ l2 ∧
      (deleteTask i (l1 ++ t :: l2)).length + 1 = (l1 ++ t :: l2).length ∧
      NoId i (deleteTask i (l1 ++ t :: l2)) := by
  have he : deleteTask i (l1 ++ t :: l2) = l1 ++ l2 :=
    filter_ne_decomp h1 h2 ht
  refine ⟨he, ?_, ?_⟩
  · rw [he]
    simp only [List.length_append, List.length_cons]
    omega
  · rw [he]
    exact noid_append h1 h2

/-- Witness for C7: deleting C from [A, B, C, D]. -/
theorem delete_removes_exactly_one_witness :
    NoId "c" [tA, tB] ∧ NoId "c" [tD] ∧
      deleteTask "c" ([tA, tB] ++ tC :: [tD]) = [tA, tB] ++ [tD] ∧
      (deleteTask "c" ([tA, tB] ++ tC :: [tD])).length + 1 =
        ([tA, tB] ++ tC :: [tD]).length ∧
      NoId "c" (deleteTask "c" ([tA, tB] ++ tC :: [tD])) := by
  have h := @delete_removes_exactly_one "c" [tA, tB] [tD] tC
    (by decide) (by decide) rfl
  exact ⟨by decide, by decide, h.1, h.2.1, h.2.2⟩

/-- C8.  Update frame: when `i` identifies exactly one task `t`,
`updateTask i title` replaces only that task's title; its position,
`completed` flag, id and `createdAt` are unchanged and every other task
is unchanged in all fields and position. -/
theorem update_frame {i title : String} {l1 l2 : List Task} {t : Task}
    (h1 : NoId i l1) (h2 : NoId i l2) (ht : t.id = i) :
    updateTask i title (l1 ++ t :: l2) = l1 ++ { t with title := title } :: l2 := by
  unfold updateTask
  rw [List.map_append]
  have e1 : l1.map (fun task =>
      if task.id == i then { task with title := title } else task) = l1 :=
    updateTask_not_found h1
  have e2 : l2.map (fun task =>
      if task.id == i then { task with title := title } else task) = l2 :=
    updateTask_not_found h2
  rw [e1, List.map_cons, e2]
  simp [ht]

/-- Witness for C8: renaming B inside [A, B, C, D]. -/
theorem update_frame_witness :
    NoId "b" [tA] ∧ NoId "b" [tC, tD] ∧
      updateTask "b" "renamed" ([tA] ++ tB :: [tC, tD]) =
        [tA] ++ { tB with title := "renamed" } :: [tC, tD] :=
  ⟨by decide, by decide,
    @update_frame "b" "renamed" [tA] [tC, tD] tB (by decide) (by decide) rfl⟩

/-- C9.  Toggle parity: when `i` identifies exactly one task `t`,
applying `toggleTask i` an even number of times (with no other mutations
in between) leaves a task with that id whose `completed` flag — and
title and creation time — equal the original's, although its position
may differ. -/
theorem toggle_parity {i : String} {l1 l2 : List Task} {t : Task}
    (h1 : NoId i l1) (h2 : NoId i l2) (ht : t.id = i) (k : Nat) :
    ∃ u, findTask i ((toggleTask i)^[2 * k] (l1 ++ t :: l2)) = some u ∧
      u.completed = t.completed ∧ u.title = t.title ∧
      u.createdAt = t.createdAt := by
  obtain ⟨m1, m2, u, he, hm1, _, hid, htit, hcr, hcomp⟩ :=
    toggleTask_iterate ht (2 * k) l1 l2 h1 h2
  refine ⟨u, ?_, ?_, htit, hcr⟩
  · rw [he]
    exact find?_id_decomp hm1 hid
  · rw [hcomp]
    simp [Nat.mul_mod_right]

/-- Witness for C9: toggling B twice inside [A, B, C] restores its
`completed` flag. -/
theorem toggle_parity_witness :
    NoId "b" [tA] ∧ NoId "b" [tC] ∧
      ∃ u, findTask "b" ((toggleTask "b")^[2 * 1] ([tA] ++ tB :: [tC])) = some u ∧
        u.completed = tB.completed ∧ u.title = tB.title ∧
        u.createdAt = tB.createdAt :=
  ⟨by decide, by decide,
    @toggle_parity "b" [tA] [tC] tB (by decide) (by decide) rfl 1⟩

/-- C10.  Implicit toggle frame and conservation: when `i` identifies
exactly one task `t`, `toggleTask i` produces a permutation of the input
in which `t` has only its `completed` flag flipped (id, title,
`createdAt` unchanged) and every other task is unchanged in all fields;
the length and the ids of the list are preserved. -/
theorem toggle_frame_perm {i : String} {l1 l2 : List Task} {t : Task}
    (h1 : NoId i l1) (h2 : NoId i l2) (ht : t.id = i) :
    (toggleTask i (l1 ++ t :: l2)).Perm
        (l1 ++ { t with completed := !t.completed } :: l2) ∧
      (toggleTask i (l1 ++ t :: l2)).length = (l1 ++ t :: l2).length ∧
      ((toggleTask i (l1 ++ t :: l2)).map Task.id).Perm
        ((l1 ++ t :: l2).map Task.id) := by
  have hp := toggleTask_perm h1 h2 ht
  refine ⟨hp, ?_, ?_⟩
  · rw [hp.length_eq]
    simp
  · have hmapeq : (l1 ++ { t with completed := !t.completed } :: l2).map Task.id =
        (l1 ++ t :: l2).map Task.id := by simp
    rw [← hmapeq]
    exact hp.map Task.id

/-- Witness for C10: toggling D inside [A, B, C, D]. -/
theorem toggle_frame_perm_witness :
    NoId "d" [tA, tB, tC] ∧
      (toggleTask "d" ([tA, tB, tC] ++ tD :: [])).Perm
        ([tA, tB, tC] ++ { tD with completed := !tD.completed } :: []) ∧
      (toggleTask "d" ([tA, tB, tC] ++ tD :: [])).length =
        ([tA, tB, tC] ++ tD :: []).length := by
  have h := @toggle_frame_perm "d" [tA, tB, tC] [] tD (by decide) (by decide) rfl
  exact ⟨by decide, h.1, h.2.1⟩

end TaskStore
